import Mathlib

/-!
Verification of the WordSeeker word-search application core.

The puzzle generation engine (`puzzle_engine.py`), the grid interaction
widget (`widgets.py`), the application-level solving/persistence state
machine (`main.py`) and the word validator (`utils.py`) are shallowly
embedded below.  Python strings are `List Char`, grids are `List (List
Char)`, Python `set`/`frozenset` are `Finset`, and the pseudo-random
source is an injected stream of draws (any execution of the original
corresponds to one choice of stream, and conversely).
-/

namespace WordSeeker

/-- A grid cell, `(row, col)`, as produced by the Python code (plain int
pairs). -/
abbrev Cell := Int × Int

/-- The square letter grid: a list of rows, each a list of characters.
The blank sentinel is `' '`. -/
abbrev Grid := List (List Char)

/-- Reading `grid[r][c]`.  All reads performed by the embedded code are
guarded by `0 ≤ r, c < len(grid)` bounds checks, so the `toNat`/default
fallbacks are never exercised on those paths. -/
def cellAt (g : Grid) (p : Cell) : Char :=
  (g.getD p.1.toNat []).getD p.2.toNat ' '

/-- `constants.MAX_PLACEMENT_ATTEMPTS`. -/
def MAX_PLACEMENT_ATTEMPTS : ℕ := 100

/-- `constants.MIN_WORD_LEN`. -/
def MIN_WORD_LEN : ℕ := 2

/-- `constants.MAX_WORD_LEN`. -/
def MAX_WORD_LEN : ℕ := 15

/-- `constants.MAX_WORDS_COUNT`. -/
def MAX_WORDS_COUNT : ℕ := 15

/-- `constants.DIRECTIONS`: the 8 placement direction vectors. -/
def DIRECTIONS : List (Int × Int) :=
  [(0, 1), (1, 0), (0, -1), (-1, 0), (1, 1), (1, -1), (-1, 1), (-1, -1)]

/-- The 26-letter alphabet used by `fill_empty_cells`. -/
def ALPHABET : List Char := "ABCDEFGHIJKLMNOPQRSTUVWXYZ".toList

/-- In-bounds predicate used by the engine: `0 <= row < size and
0 <= col < size` with `size = len(grid)`. -/
def inBoundsCell (size : ℕ) (p : Cell) : Prop :=
  0 ≤ p.1 ∧ p.1 < (size : Int) ∧ 0 ≤ p.2 ∧ p.2 < (size : Int)

instance (size : ℕ) (p : Cell) : Decidable (inBoundsCell size p) := by
  unfold inBoundsCell; infer_instance

/-- The body of `can_place_word`'s `for i, letter in enumerate(word)` loop
with its two early `return False` exits, starting at index `i`. -/
def canPlaceFrom (grid : Grid) (start_row start_col dr dc : Int) :
    ℕ → List Char → Bool
  | _, [] => true
  | i, letter :: rest =>
    let row := start_row + (i : Int) * dr
    let col := start_col + (i : Int) * dc
    if ¬ inBoundsCell grid.length (row, col) then false
    else if cellAt grid (row, col) ≠ ' ' ∧ cellAt grid (row, col) ≠ letter then false
    else canPlaceFrom grid start_row start_col dr dc (i + 1) rest

/-- `puzzle_engine.can_place_word`. -/
def can_place_word (grid : Grid) (word : List Char) (start_row start_col : Int)
    (direction : Int × Int) : Bool :=
  canPlaceFrom grid start_row start_col direction.1 direction.2 0 word

/-- Writing `grid[r][c] = ch` (the indices are in bounds whenever the
engine writes, having been checked by `can_place_word`). -/
def setCell (g : Grid) (r c : Int) (ch : Char) : Grid :=
  g.set r.toNat ((g.getD r.toNat []).set c.toNat ch)

/-- The body of `place_word`'s `for i, letter in enumerate(word)` loop,
starting at index `i`. -/
def placeLetters (start_row start_col dr dc : Int) :
    ℕ → List Char → Grid → Grid
  | _, [], g => g
  | i, letter :: rest, g =>
    placeLetters start_row start_col dr dc (i + 1) rest
      (setCell g (start_row + (i : Int) * dr) (start_col + (i : Int) * dc) letter)

/-- `puzzle_engine.place_word` (returning the mutated grid). -/
def place_word (grid : Grid) (word : List Char) (start_row start_col : Int)
    (direction : Int × Int) : Grid :=
  placeLetters start_row start_col direction.1 direction.2 0 word grid

/-- `puzzle_engine.get_word_path`. -/
def get_word_path (word : List Char) (start_row start_col : Int)
    (direction : Int × Int) : List Cell :=
  (List.range word.length).map fun i : ℕ =>
    (start_row + (i : Int) * direction.1, start_col + (i : Int) * direction.2)

/-- The random letter stream for `fill_empty_cells`: for a blank cell
`(r, c)` the raw draw `L r c`, reduced mod 26, indexes the alphabet
(`random.choice` over the 26-letter string). -/
abbrev LetterRng := ℕ → ℕ → ℕ

/-- `puzzle_engine.fill_empty_cells` (returning the mutated grid). -/
def fill_empty_cells (L : LetterRng) (grid : Grid) : Grid :=
  grid.mapIdx fun r row =>
    row.mapIdx fun c ch =>
      if ch = ' ' then ALPHABET.getD (L r c % 26) 'A' else ch

/-- A committed word placement: the dict
`{word: ..., path: ..., direction: ...}` built by `generate_word_search`. -/
structure Placement where
  word : List Char
  path : List Cell
  direction : Int × Int
deriving DecidableEq, Repr

/-- The random stream for placement attempts: for (index of the word in
the sorted order, attempt number) the raw draws behind the two
`random.randint(0, grid_size - 1)` calls and the `random.choice(DIRECTIONS)`
call of that attempt. -/
abbrev PlaceRng := ℕ → ℕ → ℕ × ℕ × ℕ

/-- The concrete candidate `(start_row, start_col, direction)` drawn for
attempt `attempt` of word `wIdx`: raw draws reduced into `[0, grid_size)`
and into the 8 directions (every value a `randint`/`choice` can return is
reached, and only those). -/
def drawCandidate (rng : PlaceRng) (grid_size : ℕ) (wIdx attempt : ℕ) :
    Int × Int × (Int × Int) :=
  let t := rng wIdx attempt
  let start_row : ℕ := if grid_size = 0 then 0 else t.1 % grid_size
  let start_col : ℕ := if grid_size = 0 then 0 else t.2.1 % grid_size
  ((start_row : Int), (start_col : Int), DIRECTIONS.getD (t.2.2 % 8) (0, 1))

/-- The `while not placed and attempts < MAX_PLACEMENT_ATTEMPTS` retry
loop of `generate_word_search` for one word: `attempt` is the value of
`attempts`, `fuel` the remaining budget (`MAX_PLACEMENT_ATTEMPTS -
attempts`); returns the updated grid and recorded placement, or `none`
when the budget is exhausted. -/
def tryAttempts (rng : PlaceRng) (grid_size : ℕ) (wIdx : ℕ) (word : List Char)
    (grid : Grid) (attempt : ℕ) : ℕ → Option (Grid × Placement)
  | 0 => none
  | fuel + 1 =>
    let cand := drawCandidate rng grid_size wIdx attempt
    if can_place_word grid word cand.1 cand.2.1 cand.2.2 then
      some (place_word grid word cand.1 cand.2.1 cand.2.2,
        { word := word
          path := get_word_path word cand.1 cand.2.1 cand.2.2
          direction := cand.2.2 })
    else
      tryAttempts rng grid_size wIdx word grid (attempt + 1) fuel

/-- The `for word in sorted_words` placement loop of
`generate_word_search`: threads the grid and the accumulated
`placed_words` list; any word whose retry budget is exhausted aborts the
whole run with `none`. -/
def placeWords (rng : PlaceRng) (grid_size : ℕ) :
    List (List Char) → Grid → List Placement → ℕ →
    Option (Grid × List Placement)
  | [], grid, placed, _ => some (grid, placed)
  | w :: ws, grid, placed, wIdx =>
    match tryAttempts rng grid_size wIdx w grid 0 MAX_PLACEMENT_ATTEMPTS with
    | none => none
    | some (g, pl) => placeWords rng grid_size ws g (placed ++ [pl]) (wIdx + 1)

/-- One step of the stable descending-by-length sort: insert `w` before
the first strictly shorter word, after any word of equal length. -/
def insertByLenDesc (w : List Char) : List (List Char) → List (List Char)
  | [] => [w]
  | x :: xs =>
    if x.length < w.length then w :: x :: xs else x :: insertByLenDesc w xs

/-- `sorted(valid_words, key=len, reverse=True)`: the stable descending
sort by word length (insertion sort realizes exactly the stable-sort
contract of Python's `sorted`). -/
def sortedByLenDesc : List (List Char) → List (List Char)
  | [] => []
  | w :: ws => insertByLenDesc w (sortedByLenDesc ws)

/-- The initial all-blank `grid_size × grid_size` grid. -/
def emptyGrid (grid_size : ℕ) : Grid :=
  List.replicate grid_size (List.replicate grid_size ' ')

/-- `puzzle_engine.generate_word_search`; `none` models the
`(None, None)` FAILURE outcome. -/
def generate_word_search (rng : PlaceRng) (L : LetterRng) (grid_size : ℕ)
    (words : List (List Char)) : Option (Grid × List Placement) :=
  if (words.filter fun w => w.length ≤ grid_size).length < words.length then none
  else
    match placeWords rng grid_size
        (sortedByLenDesc (words.filter fun w => w.length ≤ grid_size))
        (emptyGrid grid_size) [] 0 with
    | none => none
    | some (g, placed) => some (fill_empty_cells L g, placed)

/-- The cell `(start_row + i * dr, start_col + i * dc)` that index `i` of
a word occupies under a placement. -/
def wordCell (start_row start_col dr dc : Int) (i : ℕ) : Cell :=
  (start_row + (i : Int) * dr, start_col + (i : Int) * dc)

/-- A square grid of the given size with all rows of that length (the
data-model invariant of every grid the application builds). -/
def WellFormed (size : ℕ) (g : Grid) : Prop :=
  g.length = size ∧ ∀ row ∈ g, row.length = size

/-- Invariant tying a recorded placement to the current grid: its path
matches the word in length, stays in bounds, and the grid letters along
it spell the word with non-blank letters. -/
def GoodPlacement (size : ℕ) (g : Grid) (pl : Placement) : Prop :=
  pl.path.length = pl.word.length ∧
  ∀ j, j < pl.word.length →
    inBoundsCell size (pl.path.getD j (0, 0)) ∧
    cellAt g (pl.path.getD j (0, 0)) = pl.word.getD j ' ' ∧
    pl.word.getD j ' ' ≠ ' '

/-! ### Grid interaction widget (`widgets.py`) -/

/-- The drag-interaction state of `PuzzleGrid`. -/
structure DragState where
  is_dragging : Bool
  drag_start_cell : Cell
  drag_current_cell : Cell
  current_temp_path : List Cell
deriving DecidableEq, Repr

/-- `PuzzleGrid.is_valid_drag_path`: the drag must stay on a row, column
or diagonal. -/
def is_valid_drag_path (s e : Cell) : Bool :=
  decide (e.1 - s.1 = 0) || decide (e.2 - s.2 = 0) ||
    decide (|e.1 - s.1| = |e.2 - s.2|)

/-- `PuzzleGrid.get_path_between`.  Python `//` is floor division, hence
`Int.fdiv`. -/
def get_path_between (grid_size : ℕ) (s e : Cell) : List Cell :=
  let dr := e.1 - s.1
  let dc := e.2 - s.2
  let steps : Int := max |dr| |dc|
  if steps = 0 then [s]
  else
    let dr_step := if dr ≠ 0 then Int.fdiv dr steps else 0
    let dc_step := if dc ≠ 0 then Int.fdiv dc steps else 0
    ((List.range (steps.toNat + 1)).map fun i : ℕ =>
        (s.1 + dr_step * (i : Int), s.2 + dc_step * (i : Int))).filter
      fun p => decide (inBoundsCell grid_size p)

/-- `PuzzleGrid.mouseMoveEvent`, at the level of grid cells: `cell?` is
the result of `get_cell_from_pos` (already `none` when the pointer is
off the grid), `hasGrid` the truthiness of `self.grid`. -/
def mouseMoveEvent (grid_size : ℕ) (hasGrid : Bool) (st : DragState)
    (cell? : Option Cell) : DragState :=
  if st.is_dragging && hasGrid then
    match cell? with
    | some cell =>
      if cell ≠ st.drag_current_cell then
        if is_valid_drag_path st.drag_start_cell cell then
          { st with drag_current_cell := cell
                    current_temp_path :=
                      get_path_between grid_size st.drag_start_cell cell }
        else st
      else st
    | none => st
  else st

/-- `PuzzleGrid.mouseReleaseEvent` for a left-button release: the new
drag state, and the path emitted through the `word_selected` signal,
when any. -/
def mouseReleaseEvent (st : DragState) : DragState × Option (List Cell) :=
  if st.is_dragging then
    ({ st with is_dragging := false, current_temp_path := [] },
      if st.current_temp_path.isEmpty then none else some st.current_temp_path)
  else (st, none)

/-- Modelled from the spec (refinement reference for claim C6): the
recomputed drag path is the inclusive cell-by-cell line from start to
end, with per-axis sign steps and length `max(|Δrow|, |Δcol|)`,
out-of-bounds cells clipped. -/
def specDragLine (grid_size : ℕ) (s e : Cell) : List Cell :=
  ((List.range ((max |e.1 - s.1| |e.2 - s.2|).toNat + 1)).map fun i : ℕ =>
      (s.1 + (e.1 - s.1).sign * (i : Int),
       s.2 + (e.2 - s.2).sign * (i : Int))).filter
    fun p => decide (inBoundsCell grid_size p)

/-! ### Application state machine (`main.py`) -/

/-- The puzzle-related state of `WordSearchApp`.  `grid = []` plays the
role of Python's `None`/empty falsy grid. -/
structure AppState where
  grid : Grid
  grid_size : ℕ
  words : Finset (List Char)
  placed_words : List Placement
  unfound_words : Finset (List Char)
  found_words : Finset (List Char)
  found_paths : Finset (Finset Cell)
  hint_paths : Finset (Finset Cell)
  selected_word : Option (List Char)
deriving DecidableEq

/-- `WordSearchApp.on_word_selected`: concatenate the letters along the
selected path, match against the word set forward then reversed, record
a fresh match in the found sets and drop it from the unfound subset. -/
def on_word_selected (st : AppState) (path : List Cell) : AppState :=
  let word := path.map fun p => cellAt st.grid p
  if word ∈ st.words ∧ word ∉ st.found_words then
    { st with found_words := insert word st.found_words
              found_paths := insert path.toFinset st.found_paths
              unfound_words := st.unfound_words.erase word }
  else
    let word_rev := word.reverse
    if word_rev ∈ st.words ∧ word_rev ∉ st.found_words then
      { st with found_words := insert word_rev st.found_words
                found_paths := insert path.toFinset st.found_paths
                unfound_words := st.unfound_words.erase word_rev }
    else st

/-- The outcome `WordSearchApp.give_hint` reports through its message
boxes / status bar. -/
inductive HintReport where
  | noPuzzle
  | noSelection
  | alreadyFound
  | hinted
  | wordNotFound
deriving DecidableEq, Repr

/-- `WordSearchApp.give_hint`: on success the hint set is replaced by
the single one-cell path holding the first cell of the selected word's
stored placement path. -/
def give_hint (st : AppState) : AppState × HintReport :=
  if st.grid.isEmpty then (st, HintReport.noPuzzle)
  else
    match st.selected_word with
    | none => (st, HintReport.noSelection)
    | some w =>
      if w ∈ st.found_words then (st, HintReport.alreadyFound)
      else
        match st.placed_words.find? fun pd => pd.word == w with
        | some pd =>
          ({ st with hint_paths := {({pd.path.getD 0 (0, 0)} : Finset Cell)} },
            HintReport.hinted)
        | none => (st, HintReport.wordNotFound)

/-- The JSON object read by `WordSearchApp.load_puzzle`; `none` marks a
missing key (its access raises `KeyError`). -/
structure PuzzleFile where
  grid : Option Grid
  words : Option (List (List Char))
  placed_words : Option (List Placement)
  grid_size : Option ℕ
deriving DecidableEq

/-- `WordSearchApp.load_puzzle` after the file dialog and JSON parse:
each field of the dict is read and assigned in source order, a missing
key raises, and the surrounding `try/except` turns the exception into a
reported error (`false` in the returned flag).  State mutated before
the raise stays mutated. -/
def load_puzzle (st : AppState) (f : PuzzleFile) : AppState × Bool :=
  match f.grid with
  | none => (st, false)
  | some g =>
    let st := { st with grid := g }
    match f.words with
    | none => (st, false)
    | some ws =>
      let st := { st with words := ws.toFinset }
      match f.placed_words with
      | none => (st, false)
      | some pw =>
        let st := { st with placed_words := pw }
        match f.grid_size with
        | none => (st, false)
        | some gs =>
          ({ st with grid_size := gs
                     unfound_words := ws.toFinset
                     found_words := ∅
                     found_paths := ∅
                     hint_paths := ∅ }, true)

/-! ### Word validation (`utils.py`) -/

/-- Python `str.strip()` (ASCII whitespace). -/
def pyStrip (w : List Char) : List Char :=
  ((w.dropWhile Char.isWhitespace).reverse.dropWhile Char.isWhitespace).reverse

/-- Python `str.upper()` (the words handled by the app are ASCII). -/
def pyUpper (w : List Char) : List Char :=
  w.map Char.toUpper

/-- Python `str.isalpha()`: nonempty and alphabetic throughout. -/
def pyIsAlpha (w : List Char) : Bool :=
  !w.isEmpty && w.all Char.isAlpha

/-- Python `str.isupper()`: at least one cased character and no
lowercase one. -/
def pyIsUpper (w : List Char) : Bool :=
  w.any (fun c => c.isUpper || c.isLower) && w.all fun c => !c.isLower

/-- The `for word in words_list` loop of `utils.validate_words`,
accumulating the `validated` list. -/
def validateLoop : List (List Char) → List (List Char) → List (List Char)
  | [], validated => validated
  | w :: rest, validated =>
    let word := pyUpper (pyStrip w)
    if ¬ (MIN_WORD_LEN ≤ word.length ∧ word.length ≤ MAX_WORD_LEN) then
      validateLoop rest validated
    else if ¬ (pyIsAlpha word = true ∧ pyIsUpper word = true) then
      validateLoop rest validated
    else if word ∈ validated.map pyUpper then
      validateLoop rest validated
    else
      validateLoop rest (validated ++ [word])

/-- `utils.validate_words`. -/
def validate_words (words_list : List (List Char)) : List (List Char) :=
  (validateLoop words_list []).take MAX_WORDS_COUNT

end WordSeeker

namespace WordSeeker

theorem canPlaceFrom_iff (grid : Grid) (start_row start_col dr dc : Int) :
    ∀ (w : List Char) (i : ℕ),
      canPlaceFrom grid start_row start_col dr dc i w = true ↔
        ∀ j, j < w.length →
          (inBoundsCell grid.length
              (start_row + ((i + j : ℕ) : Int) * dr,
               start_col + ((i + j : ℕ) : Int) * dc) ∧
            (cellAt grid
                (start_row + ((i + j : ℕ) : Int) * dr,
                 start_col + ((i + j : ℕ) : Int) * dc) = ' ' ∨
             cellAt grid
                (start_row + ((i + j : ℕ) : Int) * dr,
                 start_col + ((i + j : ℕ) : Int) * dc) = w.getD j ' ')) := by
  intro w
  induction w with
  | nil => intro i; simp [canPlaceFrom]
  | cons letter rest ih =>
    intro i
    rw [canPlaceFrom]
    by_cases hb : inBoundsCell grid.length
        (start_row + (i : Int) * dr, start_col + (i : Int) * dc)
    · rw [if_neg (not_not.mpr hb)]
      by_cases hc : cellAt grid (start_row + (i : Int) * dr, start_col + (i : Int) * dc) ≠ ' ' ∧
          cellAt grid (start_row + (i : Int) * dr, start_col + (i : Int) * dc) ≠ letter
      · rw [if_pos hc]
        constructor
        · intro h; exact absurd h Bool.false_ne_true
        · intro h
          have h0 := h 0 (by simp)
          simp only [Nat.add_zero, List.getD_cons_zero] at h0
          rcases h0.2 with h' | h'
          · exact absurd h' hc.1
          · exact absurd h' hc.2
      · rw [if_neg hc]
        rw [ih (i + 1)]
        constructor
        · intro h j hj
          cases j with
          | zero =>
            refine ⟨by simpa using hb, ?_⟩
            simp only [Nat.add_zero, List.getD_cons_zero]
            rcases not_and_or.mp hc with h' | h'
            · exact Or.inl (not_not.mp h')
            · exact Or.inr (not_not.mp h')
          | succ j' =>
            have hj' : j' < rest.length := by
              simp only [List.length_cons] at hj; omega
            have := h j' hj'
            have harith : i + 1 + j' = i + (j' + 1) := by omega
            rw [harith] at this
            simpa using this
        · intro h j hj
          have := h (j + 1) (by simpa using Nat.succ_lt_succ hj)
          have harith : i + (j + 1) = i + 1 + j := by omega
          rw [harith] at this
          simpa using this
    · rw [if_pos hb]
      constructor
      · intro h; exact absurd h Bool.false_ne_true
      · intro h
        have h0 := h 0 (by simp)
        simp only [Nat.add_zero] at h0
        exact absurd h0.1 hb

/-- **C5.** `can_place_word` returns `True` iff every cell the word would
occupy lies within the grid bounds and is either currently blank or
already holds the matching letter of the word. -/
theorem can_place_word_iff (grid : Grid) (word : List Char)
    (start_row start_col : Int) (direction : Int × Int) :
    can_place_word grid word start_row start_col direction = true ↔
      ∀ i, i < word.length →
        (inBoundsCell grid.length
            (start_row + (i : Int) * direction.1,
             start_col + (i : Int) * direction.2) ∧
          (cellAt grid
              (start_row + (i : Int) * direction.1,
               start_col + (i : Int) * direction.2) = ' ' ∨
           cellAt grid
              (start_row + (i : Int) * direction.1,
               start_col + (i : Int) * direction.2) = word.getD i ' ')) := by
  unfold can_place_word
  rw [canPlaceFrom_iff]
  simp

theorem getD_set_ne {α : Type} (l : List α) (m n : ℕ) (a d : α) (h : m ≠ n) :
    (l.set m a).getD n d = l.getD n d := by
  rcases lt_or_ge n l.length with h' | h'
  · rw [List.getD_eq_getElem _ _ (by simpa using h'), List.getD_eq_getElem _ _ h',
      List.getElem_set, if_neg h]
  · rw [List.getD_eq_default _ _ (by simpa using h'), List.getD_eq_default _ _ h']

theorem setCell_wf {size : ℕ} {g : Grid} (r c : Int) (ch : Char)
    (hwf : WellFormed size g) : WellFormed size (setCell g r c ch) := by
  rcases lt_or_ge r.toNat g.length with hr | hr
  · constructor
    · simpa [setCell] using hwf.1
    · intro row hrow
      rcases List.mem_or_eq_of_mem_set hrow with h | h
      · exact hwf.2 row h
      · subst h
        rw [List.length_set, List.getD_eq_getElem _ _ hr]
        exact hwf.2 _ (List.getElem_mem hr)
  · unfold setCell
    rw [List.set_eq_of_length_le hr]
    exact hwf

theorem cellAt_setCell_same {size : ℕ} {g : Grid} {r c : Int} (ch : Char)
    (hwf : WellFormed size g) (hb : inBoundsCell size (r, c)) :
    cellAt (setCell g r c ch) (r, c) = ch := by
  have h1 : (0 : Int) ≤ r := hb.1
  have h2 : r < (size : Int) := hb.2.1
  have h3 : (0 : Int) ≤ c := hb.2.2.1
  have h4 : c < (size : Int) := hb.2.2.2
  have hL := hwf.1
  have hr : r.toNat < g.length := by omega
  have hrow : (g.getD r.toNat []).length = size := by
    rw [List.getD_eq_getElem _ _ hr]
    exact hwf.2 _ (List.getElem_mem hr)
  have houter : (g.set r.toNat ((g.getD r.toNat []).set c.toNat ch)).getD r.toNat []
      = (g.getD r.toNat []).set c.toNat ch := by
    rw [List.getD_eq_getElem _ _ (by simpa using hr), List.getElem_set, if_pos rfl]
  have hc : c.toNat < ((g.getD r.toNat []).set c.toNat ch).length := by
    rw [List.length_set]; omega
  show ((g.set r.toNat ((g.getD r.toNat []).set c.toNat ch)).getD r.toNat
      []).getD c.toNat ' ' = ch
  rw [houter, List.getD_eq_getElem _ _ hc, List.getElem_set, if_pos rfl]

theorem cellAt_setCell_other {g : Grid} {r c : Int} (ch : Char) {p : Cell}
    (hr0 : 0 ≤ r) (hc0 : 0 ≤ c) (hp1 : 0 ≤ p.1) (hp2 : 0 ≤ p.2)
    (hne : p ≠ (r, c)) :
    cellAt (setCell g r c ch) p = cellAt g p := by
  obtain ⟨p1, p2⟩ := p
  have hp1' : (0 : Int) ≤ p1 := hp1
  have hp2' : (0 : Int) ≤ p2 := hp2
  show ((g.set r.toNat ((g.getD r.toNat []).set c.toNat ch)).getD p1.toNat
      []).getD p2.toNat ' ' = (g.getD p1.toNat []).getD p2.toNat ' '
  rcases eq_or_ne p1.toNat r.toNat with h1 | h1
  · have hp1r : p1 = r := by omega
    have h2 : p2 ≠ c := by
      intro h2
      exact hne (by rw [hp1r, h2])
    have hnat : c.toNat ≠ p2.toNat := by omega
    rw [h1]
    rcases lt_or_ge r.toNat g.length with hlt | hge
    · have houter : (g.set r.toNat ((g.getD r.toNat []).set c.toNat ch)).getD
          r.toNat [] = (g.getD r.toNat []).set c.toNat ch := by
        rw [List.getD_eq_getElem _ _ (by simpa using hlt), List.getElem_set,
          if_pos rfl]
      rw [houter, getD_set_ne _ _ _ _ _ hnat]
    · rw [List.set_eq_of_length_le hge]
  · rw [getD_set_ne _ _ _ _ _ (Ne.symm h1)]

theorem wordCell_inj {sr sc dr dc : Int} (hd : dr ≠ 0 ∨ dc ≠ 0) :
    ∀ j k : ℕ, wordCell sr sc dr dc j = wordCell sr sc dr dc k → j = k := by
  intro j k h
  rcases hd with hd | hd
  · have h1 : (j : Int) * dr = (k : Int) * dr := by
      have := congrArg Prod.fst h
      simp only [wordCell] at this
      omega
    have : (j : Int) = (k : Int) := mul_right_cancel₀ hd h1
    exact_mod_cast this
  · have h1 : (j : Int) * dc = (k : Int) * dc := by
      have := congrArg Prod.snd h
      simp only [wordCell] at this
      omega
    have : (j : Int) = (k : Int) := mul_right_cancel₀ hd h1
    exact_mod_cast this

theorem DIRECTIONS_nonzero : ∀ d ∈ DIRECTIONS, d.1 ≠ 0 ∨ d.2 ≠ 0 := by decide

theorem placeLetters_frame (sr sc dr dc : Int) :
    ∀ (w : List Char) (i : ℕ) (g : Grid) (p : Cell),
      0 ≤ p.1 → 0 ≤ p.2 →
      (∀ j, j < w.length → 0 ≤ (wordCell sr sc dr dc (i + j)).1 ∧
          0 ≤ (wordCell sr sc dr dc (i + j)).2) →
      (∀ j, j < w.length → p ≠ wordCell sr sc dr dc (i + j)) →
      cellAt (placeLetters sr sc dr dc i w g) p = cellAt g p := by
  intro w
  induction w with
  | nil => intro i g p _ _ _ _; rfl
  | cons letter rest ih =>
    intro i g p hp1 hp2 hpos hne
    rw [placeLetters]
    have h0 := hpos 0 (by simp)
    simp only [Nat.add_zero] at h0
    have hne0 := hne 0 (by simp)
    simp only [Nat.add_zero] at hne0
    rw [ih (i + 1) _ p hp1 hp2 ?_ ?_]
    · exact cellAt_setCell_other letter h0.1 h0.2 hp1 hp2 hne0
    · intro j hj
      have := hpos (j + 1) (by simp only [List.length_cons]; omega)
      have harith : i + (j + 1) = i + 1 + j := by omega
      rwa [harith] at this
    · intro j hj
      have := hne (j + 1) (by simp only [List.length_cons]; omega)
      have harith : i + (j + 1) = i + 1 + j := by omega
      rwa [harith] at this

theorem placeLetters_write (size : ℕ) (sr sc dr dc : Int)
    (hinj : ∀ j k : ℕ, wordCell sr sc dr dc j = wordCell sr sc dr dc k → j = k) :
    ∀ (w : List Char) (i : ℕ) (g : Grid),
      WellFormed size g →
      (∀ j, j < w.length → inBoundsCell size (wordCell sr sc dr dc (i + j))) →
      ∀ j, j < w.length →
        cellAt (placeLetters sr sc dr dc i w g) (wordCell sr sc dr dc (i + j)) =
          w.getD j ' ' := by
  intro w
  induction w with
  | nil => intro i g _ _ j hj; simp at hj
  | cons letter rest ih =>
    intro i g hwf hb j hj
    rw [placeLetters]
    have hb0 := hb 0 (by simp)
    simp only [Nat.add_zero] at hb0
    cases j with
    | zero =>
      simp only [Nat.add_zero, List.getD_cons_zero]
      rw [placeLetters_frame sr sc dr dc rest (i + 1) _ _ hb0.1 hb0.2.2.1 ?_ ?_]
      · exact cellAt_setCell_same letter hwf hb0
      · intro j' hj'
        have := hb (j' + 1) (by simp only [List.length_cons]; omega)
        have harith : i + (j' + 1) = i + 1 + j' := by omega
        rw [harith] at this
        exact ⟨this.1, this.2.2.1⟩
      · intro j' hj' hcontra
        have := hinj i (i + 1 + j') hcontra
        omega
    | succ j' =>
      have hj'' : j' < rest.length := by
        simp only [List.length_cons] at hj; omega
      have harith : i + (j' + 1) = i + 1 + j' := by omega
      rw [harith, List.getD_cons_succ]
      exact ih (i + 1) _ (setCell_wf _ _ _ hwf)
        (fun j hjlen => by
          have := hb (j + 1) (by simp only [List.length_cons]; omega)
          have ha : i + (j + 1) = i + 1 + j := by omega
          rwa [ha] at this) j' hj''

theorem can_place_word_sound {grid : Grid} {word : List Char} {sr sc : Int}
    {d : Int × Int} (h : can_place_word grid word sr sc d = true) :
    ∀ j, j < word.length →
      inBoundsCell grid.length (wordCell sr sc d.1 d.2 j) ∧
        (cellAt grid (wordCell sr sc d.1 d.2 j) = ' ' ∨
         cellAt grid (wordCell sr sc d.1 d.2 j) = word.getD j ' ') := by
  have hall := (canPlaceFrom_iff grid sr sc d.1 d.2 word 0).mp h
  intro j hj
  have h' := hall j hj
  simpa [wordCell] using h'

theorem get_word_path_eq (word : List Char) (sr sc : Int) (d : Int × Int) :
    get_word_path word sr sc d =
      (List.range word.length).map (wordCell sr sc d.1 d.2) := by
  unfold get_word_path wordCell
  rfl

theorem length_get_word_path (word : List Char) (sr sc : Int) (d : Int × Int) :
    (get_word_path word sr sc d).length = word.length := by
  rw [get_word_path_eq, List.length_map, List.length_range]

theorem getD_get_word_path {word : List Char} {sr sc : Int} {d : Int × Int}
    {j : ℕ} (hj : j < word.length) :
    (get_word_path word sr sc d).getD j (0, 0) = wordCell sr sc d.1 d.2 j := by
  rw [get_word_path_eq,
    List.getD_eq_getElem _ _ (by simpa using hj)]
  simp

theorem mem_get_word_path {word : List Char} {sr sc : Int} {d : Int × Int}
    {p : Cell} :
    p ∈ get_word_path word sr sc d ↔
      ∃ j, j < word.length ∧ p = wordCell sr sc d.1 d.2 j := by
  rw [get_word_path_eq]
  simp only [List.mem_map, List.mem_range]
  constructor
  · rintro ⟨j, hj, rfl⟩; exact ⟨j, hj, rfl⟩
  · rintro ⟨j, hj, rfl⟩; exact ⟨j, hj, rfl⟩

theorem place_word_cells {size : ℕ} {grid : Grid} {word : List Char}
    {sr sc : Int} {d : Int × Int}
    (hwf : WellFormed size grid) (hd : d.1 ≠ 0 ∨ d.2 ≠ 0)
    (hb : ∀ j, j < word.length → inBoundsCell size (wordCell sr sc d.1 d.2 j)) :
    ∀ j, j < word.length →
      cellAt (place_word grid word sr sc d) (wordCell sr sc d.1 d.2 j) =
        word.getD j ' ' := by
  intro j hj
  have := placeLetters_write size sr sc d.1 d.2 (wordCell_inj hd) word 0 grid hwf
    (fun j' hj' => by simpa using hb j' hj') j hj
  simpa [place_word] using this

theorem place_word_frame {grid : Grid} {word : List Char}
    {sr sc : Int} {d : Int × Int} {p : Cell}
    (hp1 : 0 ≤ p.1) (hp2 : 0 ≤ p.2)
    (hpos : ∀ j, j < word.length → 0 ≤ (wordCell sr sc d.1 d.2 j).1 ∧
        0 ≤ (wordCell sr sc d.1 d.2 j).2)
    (hne : p ∉ get_word_path word sr sc d) :
    cellAt (place_word grid word sr sc d) p = cellAt grid p := by
  unfold place_word
  rw [placeLetters_frame sr sc d.1 d.2 word 0 grid p hp1 hp2 ?_ ?_]
  · intro j hj
    simpa using hpos j hj
  · intro j hj hcontra
    exact hne (mem_get_word_path.mpr ⟨j, hj, by simpa using hcontra⟩)

theorem place_word_preserves {size : ℕ} {grid : Grid} {word : List Char}
    {sr sc : Int} {d : Int × Int} {p : Cell}
    (hwf : WellFormed size grid) (hd : d.1 ≠ 0 ∨ d.2 ≠ 0)
    (h : can_place_word grid word sr sc d = true)
    (hp : inBoundsCell size p)
    (hnb : cellAt grid p ≠ ' ') :
    cellAt (place_word grid word sr sc d) p = cellAt grid p := by
  have hsz : grid.length = size := hwf.1
  by_cases hmem : p ∈ get_word_path word sr sc d
  · obtain ⟨j, hj, rfl⟩ := mem_get_word_path.mp hmem
    have hsound := can_place_word_sound h j hj
    have hmatch : cellAt grid (wordCell sr sc d.1 d.2 j) = word.getD j ' ' := by
      rcases hsound.2 with h' | h'
      · exact absurd h' hnb
      · exact h'
    rw [place_word_cells hwf hd
      (fun j' hj' => by rw [← hsz]; exact (can_place_word_sound h j' hj').1) j hj]
    exact hmatch.symm
  · exact place_word_frame hp.1 hp.2.2.1
      (fun j hj =>
        ⟨(can_place_word_sound h j hj).1.1, (can_place_word_sound h j hj).1.2.2.1⟩)
      hmem

/-- **C10.** For every square grid, word, start cell and direction (one
of the 8 placement directions) accepted by `can_place_word`,
`place_word` writes `word[i]` into cell
`(start_row + i*dr, start_col + i*dc)` for each index `i`, and every
grid cell not on that path keeps exactly the letter it held before. -/
theorem place_word_writes_word_and_frames_rest (grid : Grid) (word : List Char)
    (sr sc : Int) (d : Int × Int)
    (hsq : WellFormed grid.length grid) (hd : d ∈ DIRECTIONS)
    (h : can_place_word grid word sr sc d = true) :
    (∀ i, i < word.length →
      cellAt (place_word grid word sr sc d) (wordCell sr sc d.1 d.2 i) =
        word.getD i ' ') ∧
    (∀ p : Cell, inBoundsCell grid.length p → p ∉ get_word_path word sr sc d →
      cellAt (place_word grid word sr sc d) p = cellAt grid p) := by
  constructor
  · exact place_word_cells hsq (DIRECTIONS_nonzero d hd)
      (fun j hj => (can_place_word_sound h j hj).1)
  · intro p hp hne
    exact place_word_frame hp.1 hp.2.2.1
      (fun j hj =>
        ⟨(can_place_word_sound h j hj).1.1, (can_place_word_sound h j hj).1.2.2.1⟩)
      hne

/-- Concrete witness data for the placement claims: the blank 2×2 grid. -/
theorem place_word_writes_word_and_frames_rest_witness :
    cellAt (place_word (emptyGrid 2) ['A', 'B'] 0 0 (0, 1)) (wordCell 0 0 0 1 0) =
      'A' ∧
    cellAt (place_word (emptyGrid 2) ['A', 'B'] 0 0 (0, 1)) (1, 1) = ' ' := by
  constructor
  · exact (place_word_writes_word_and_frames_rest (emptyGrid 2) ['A', 'B'] 0 0 (0, 1)
      (by constructor <;> simp [emptyGrid]) (by decide) (by decide)).1 0 (by decide)
  · exact (place_word_writes_word_and_frames_rest (emptyGrid 2) ['A', 'B'] 0 0 (0, 1)
      (by constructor <;> simp [emptyGrid]) (by decide) (by decide)).2 (1, 1)
      (by constructor <;> decide) (by decide)

theorem placeLetters_wf (size : ℕ) (sr sc dr dc : Int) :
    ∀ (w : List Char) (i : ℕ) (g : Grid), WellFormed size g →
      WellFormed size (placeLetters sr sc dr dc i w g)
  | [], _, _, hwf => hwf
  | _ :: rest, i, _, hwf =>
    placeLetters_wf size sr sc dr dc rest (i + 1) _ (setCell_wf _ _ _ hwf)

theorem place_word_wf {size : ℕ} {grid : Grid} (word : List Char)
    (sr sc : Int) (d : Int × Int) (hwf : WellFormed size grid) :
    WellFormed size (place_word grid word sr sc d) :=
  placeLetters_wf size sr sc d.1 d.2 word 0 grid hwf

theorem emptyGrid_wf (size : ℕ) : WellFormed size (emptyGrid size) := by
  constructor
  · simp [emptyGrid]
  · intro row hrow
    rw [List.eq_of_mem_replicate hrow]
    simp

theorem ALPHABET_ne_blank : ∀ c ∈ ALPHABET, c ≠ ' ' := by decide

theorem alpha_letter_ne_blank (n : ℕ) : ALPHABET.getD (n % 26) 'A' ≠ ' ' := by
  have hlt : n % 26 < ALPHABET.length := by
    have : n % 26 < 26 := Nat.mod_lt _ (by norm_num)
    simpa [ALPHABET] using this
  rw [List.getD_eq_getElem _ _ hlt]
  exact ALPHABET_ne_blank _ (List.getElem_mem hlt)

theorem fill_wf {size : ℕ} {g : Grid} (L : LetterRng) (hwf : WellFormed size g) :
    WellFormed size (fill_empty_cells L g) := by
  constructor
  · rw [fill_empty_cells, List.length_mapIdx]
    exact hwf.1
  · intro row hrow
    rw [fill_empty_cells] at hrow
    obtain ⟨r, hr, rfl⟩ := List.mem_iff_getElem.mp hrow
    rw [List.getElem_mapIdx, List.length_mapIdx]
    exact hwf.2 _ (List.getElem_mem (by simpa [List.length_mapIdx] using hr))

theorem cellAt_fill {size : ℕ} {g : Grid} (L : LetterRng) {p : Cell}
    (hwf : WellFormed size g) (hp : inBoundsCell size p) :
    cellAt (fill_empty_cells L g) p =
      if cellAt g p = ' ' then ALPHABET.getD (L p.1.toNat p.2.toNat % 26) 'A'
      else cellAt g p := by
  have h1 : (0 : Int) ≤ p.1 := hp.1
  have h2 : p.1 < (size : Int) := hp.2.1
  have h3 : (0 : Int) ≤ p.2 := hp.2.2.1
  have h4 : p.2 < (size : Int) := hp.2.2.2
  have hL := hwf.1
  have hr : p.1.toNat < g.length := by omega
  have hrowlen : g[p.1.toNat].length = size := hwf.2 _ (List.getElem_mem hr)
  have hc : p.2.toNat < g[p.1.toNat].length := by omega
  have hfill_row : (fill_empty_cells L g)[p.1.toNat]? =
      some (g[p.1.toNat].mapIdx fun c ch =>
        if ch = ' ' then ALPHABET.getD (L p.1.toNat c % 26) 'A' else ch) := by
    unfold fill_empty_cells
    rw [List.getElem?_mapIdx, List.getElem?_eq_getElem hr]
    rfl
  have hfill_cell : (g[p.1.toNat].mapIdx fun c ch =>
      if ch = ' ' then ALPHABET.getD (L p.1.toNat c % 26) 'A'
      else ch)[p.2.toNat]? =
      some (if g[p.1.toNat][p.2.toNat] = ' '
        then ALPHABET.getD (L p.1.toNat p.2.toNat % 26) 'A'
        else g[p.1.toNat][p.2.toNat]) := by
    rw [List.getElem?_mapIdx, List.getElem?_eq_getElem hc]
    rfl
  have hrhs : cellAt g p = g[p.1.toNat][p.2.toNat] := by
    unfold cellAt
    rw [List.getD_eq_getElem?_getD g p.1.toNat [], List.getElem?_eq_getElem hr,
      Option.getD_some, List.getD_eq_getElem?_getD,
      List.getElem?_eq_getElem hc, Option.getD_some]
  have hlhs : cellAt (fill_empty_cells L g) p =
      if g[p.1.toNat][p.2.toNat] = ' '
      then ALPHABET.getD (L p.1.toNat p.2.toNat % 26) 'A'
      else g[p.1.toNat][p.2.toNat] := by
    unfold cellAt
    rw [List.getD_eq_getElem?_getD (fill_empty_cells L g) p.1.toNat [],
      hfill_row, Option.getD_some, List.getD_eq_getElem?_getD, hfill_cell,
      Option.getD_some]
  rw [hlhs, hrhs]

theorem fill_no_blank (L : LetterRng) (g : Grid) :
    ∀ row ∈ fill_empty_cells L g, ∀ ch ∈ row, ch ≠ ' ' := by
  intro row hrow ch hch
  obtain ⟨r, hr, hrow_eq⟩ := List.mem_iff_getElem.mp hrow
  have hr' : r < g.length := by
    have := hr
    rw [fill_empty_cells, List.length_mapIdx] at this
    exact this
  have hrow2 : (fill_empty_cells L g)[r]? =
      some (g[r].mapIdx fun c ch' =>
        if ch' = ' ' then ALPHABET.getD (L r c % 26) 'A' else ch') := by
    unfold fill_empty_cells
    rw [List.getElem?_mapIdx, List.getElem?_eq_getElem hr']
    rfl
  have hrow3 : row = g[r].mapIdx fun c ch' =>
      if ch' = ' ' then ALPHABET.getD (L r c % 26) 'A' else ch' := by
    have hsome := List.getElem?_eq_getElem hr
    rw [hrow2] at hsome
    rw [← hrow_eq, ← Option.some.inj hsome]
  subst hrow3
  obtain ⟨c, hc, hch_eq⟩ := List.mem_iff_getElem.mp hch
  have hc' : c < g[r].length := by
    have := hc
    rw [List.length_mapIdx] at this
    exact this
  rw [← hch_eq, List.getElem_mapIdx]
  by_cases hblank : g[r][c] = ' '
  · rw [if_pos hblank]
    exact alpha_letter_ne_blank _
  · rw [if_neg hblank]
    exact hblank

theorem drawCandidate_dir_mem (rng : PlaceRng) (gs wIdx a : ℕ) :
    (drawCandidate rng gs wIdx a).2.2 ∈ DIRECTIONS := by
  have hlt : (rng wIdx a).2.2 % 8 < DIRECTIONS.length := by
    have : (rng wIdx a).2.2 % 8 < 8 := Nat.mod_lt _ (by norm_num)
    simpa [DIRECTIONS] using this
  show DIRECTIONS.getD ((rng wIdx a).2.2 % 8) (0, 1) ∈ DIRECTIONS
  rw [List.getD_eq_getElem _ _ hlt]
  exact List.getElem_mem hlt

theorem tryAttempts_sound {rng : PlaceRng} {gs wIdx : ℕ} {w : List Char}
    {grid : Grid} :
    ∀ (fuel attempt : ℕ) {g' : Grid} {pl : Placement},
      tryAttempts rng gs wIdx w grid attempt fuel = some (g', pl) →
      ∃ sr sc : Int, ∃ d : Int × Int, d ∈ DIRECTIONS ∧
        can_place_word grid w sr sc d = true ∧
        g' = place_word grid w sr sc d ∧
        pl = { word := w, path := get_word_path w sr sc d, direction := d }
  | 0, _, _, _, h => by simp [tryAttempts] at h
  | fuel + 1, attempt, g', pl, h => by
    rw [tryAttempts] at h
    by_cases hc : can_place_word grid w (drawCandidate rng gs wIdx attempt).1
        (drawCandidate rng gs wIdx attempt).2.1
        (drawCandidate rng gs wIdx attempt).2.2 = true
    · rw [if_pos hc] at h
      refine ⟨(drawCandidate rng gs wIdx attempt).1,
        (drawCandidate rng gs wIdx attempt).2.1,
        (drawCandidate rng gs wIdx attempt).2.2,
        drawCandidate_dir_mem rng gs wIdx attempt, hc, ?_, ?_⟩
      · exact (Prod.mk.injEq _ _ _ _ ▸ (Option.some.injEq _ _ ▸ h)).1.symm
      · exact (Prod.mk.injEq _ _ _ _ ▸ (Option.some.injEq _ _ ▸ h)).2.symm
    · rw [if_neg hc] at h
      exact tryAttempts_sound fuel (attempt + 1) h

theorem tryAttempts_word {rng : PlaceRng} {gs wIdx : ℕ} {w : List Char}
    {grid : Grid} {fuel attempt : ℕ} {g' : Grid} {pl : Placement}
    (h : tryAttempts rng gs wIdx w grid attempt fuel = some (g', pl)) :
    pl.word = w := by
  obtain ⟨sr, sc, d, _, _, _, rfl⟩ := tryAttempts_sound fuel attempt h
  rfl

theorem placeWords_words {rng : PlaceRng} {gs : ℕ} :
    ∀ (ws : List (List Char)) (grid : Grid) (placed : List Placement)
      (wIdx : ℕ) {gf : Grid} {pls : List Placement},
      placeWords rng gs ws grid placed wIdx = some (gf, pls) →
      pls.map Placement.word = placed.map Placement.word ++ ws
  | [], grid, placed, wIdx, gf, pls, h => by
    rw [placeWords] at h
    obtain ⟨rfl, rfl⟩ : grid = gf ∧ placed = pls := by
      simpa using h
    simp
  | w :: ws', grid, placed, wIdx, gf, pls, h => by
    rw [placeWords] at h
    cases htry : tryAttempts rng gs wIdx w grid 0 MAX_PLACEMENT_ATTEMPTS with
    | none => rw [htry] at h; exact absurd h (by simp)
    | some gp =>
      rw [htry] at h
      have := placeWords_words ws' gp.1 (placed ++ [gp.2]) (wIdx + 1) h
      rw [this, List.map_append]
      have hword : gp.2.word = w := tryAttempts_word (by rw [htry])
      simp [hword]

theorem good_of_place {size : ℕ} {grid : Grid} {w : List Char} {sr sc : Int}
    {d : Int × Int} (hwf : WellFormed size grid) (hd : d ∈ DIRECTIONS)
    (h : can_place_word grid w sr sc d = true) (hnb : ∀ ch ∈ w, ch ≠ ' ') :
    GoodPlacement size (place_word grid w sr sc d)
      { word := w, path := get_word_path w sr sc d, direction := d } := by
  have hsz : grid.length = size := hwf.1
  constructor
  · exact length_get_word_path w sr sc d
  · intro j hj
    simp only at hj ⊢
    rw [getD_get_word_path hj]
    refine ⟨by rw [← hsz]; exact (can_place_word_sound h j hj).1, ?_, ?_⟩
    · exact place_word_cells hwf (DIRECTIONS_nonzero d hd)
        (fun j' hj' => by rw [← hsz]; exact (can_place_word_sound h j' hj').1) j hj
    · have : w.getD j ' ' ∈ w := by
        rw [List.getD_eq_getElem _ _ hj]
        exact List.getElem_mem hj
      exact hnb _ this

theorem good_preserved_place {size : ℕ} {grid : Grid} {w' : List Char}
    {sr sc : Int} {d : Int × Int} {pl : Placement}
    (hwf : WellFormed size grid) (hd : d ∈ DIRECTIONS)
    (h : can_place_word grid w' sr sc d = true)
    (hg : GoodPlacement size grid pl) :
    GoodPlacement size (place_word grid w' sr sc d) pl := by
  refine ⟨hg.1, fun j hj => ?_⟩
  obtain ⟨hb, hcell, hne⟩ := hg.2 j hj
  refine ⟨hb, ?_, hne⟩
  rw [place_word_preserves hwf (DIRECTIONS_nonzero d hd) h hb (by rw [hcell]; exact hne)]
  exact hcell

theorem good_preserved_fill {size : ℕ} {g : Grid} (L : LetterRng)
    {pl : Placement} (hwf : WellFormed size g)
    (hg : GoodPlacement size g pl) :
    GoodPlacement size (fill_empty_cells L g) pl := by
  refine ⟨hg.1, fun j hj => ?_⟩
  obtain ⟨hb, hcell, hne⟩ := hg.2 j hj
  refine ⟨hb, ?_, hne⟩
  rw [cellAt_fill L hwf hb, hcell, if_neg hne]

theorem placeWords_good {rng : PlaceRng} {gs : ℕ} :
    ∀ (ws : List (List Char)) (grid : Grid) (placed : List Placement)
      (wIdx : ℕ) {gf : Grid} {pls : List Placement},
      placeWords rng gs ws grid placed wIdx = some (gf, pls) →
      WellFormed gs grid →
      (∀ w ∈ ws, ∀ ch ∈ w, ch ≠ ' ') →
      (∀ pl ∈ placed, GoodPlacement gs grid pl) →
      WellFormed gs gf ∧ ∀ pl ∈ pls, GoodPlacement gs gf pl
  | [], grid, placed, wIdx, gf, pls, h, hwf, _, hgood => by
    rw [placeWords] at h
    obtain ⟨rfl, rfl⟩ : grid = gf ∧ placed = pls := by
      simpa using h
    exact ⟨hwf, hgood⟩
  | w :: ws', grid, placed, wIdx, gf, pls, h, hwf, hnb, hgood => by
    rw [placeWords] at h
    cases htry : tryAttempts rng gs wIdx w grid 0 MAX_PLACEMENT_ATTEMPTS with
    | none => rw [htry] at h; exact absurd h (by simp)
    | some gp =>
      rw [htry] at h
      obtain ⟨sr, sc, d, hd, hcan, hg', hpl⟩ :=
        tryAttempts_sound MAX_PLACEMENT_ATTEMPTS 0 htry
      have hwf' : WellFormed gs gp.1 := by
        rw [hg']; exact place_word_wf w sr sc d hwf
      have hgood' : ∀ pl ∈ placed ++ [gp.2], GoodPlacement gs gp.1 pl := by
        intro pl hpl'
        rcases List.mem_append.mp hpl' with hmem | hmem
        · rw [hg']
          exact good_preserved_place hwf hd hcan (hgood pl hmem)
        · rw [List.mem_singleton.mp hmem, hpl, hg']
          exact good_of_place hwf hd hcan (hnb w (by simp))
      exact placeWords_good ws' gp.1 (placed ++ [gp.2]) (wIdx + 1) h hwf'
        (fun w' hw' => hnb w' (List.mem_cons_of_mem _ hw')) hgood'

theorem filter_eq_self_of_not_lt {p : List Char → Bool}
    {l : List (List Char)} (h : ¬ (l.filter p).length < l.length) :
    l.filter p = l := by
  rw [List.filter_eq_self]
  intro a ha
  by_contra hpa
  exact h (List.length_filter_lt_length_iff_exists.mpr ⟨a, ha, hpa⟩)

theorem generate_sound {rng : PlaceRng} {L : LetterRng} {gs : ℕ}
    {words : List (List Char)} {g : Grid} {pls : List Placement}
    (h : generate_word_search rng L gs words = some (g, pls)) :
    words.filter (fun w => w.length ≤ gs) = words ∧
    ∃ gf : Grid,
      placeWords rng gs (sortedByLenDesc (words.filter fun w => w.length ≤ gs))
        (emptyGrid gs) [] 0 = some (gf, pls) ∧
      g = fill_empty_cells L gf := by
  rw [generate_word_search] at h
  by_cases hlt : (words.filter fun w => w.length ≤ gs).length < words.length
  · rw [if_pos hlt] at h; exact absurd h (by simp)
  · rw [if_neg hlt] at h
    have hfe := filter_eq_self_of_not_lt hlt
    refine ⟨hfe, ?_⟩
    cases hpw : placeWords rng gs
        (sortedByLenDesc (words.filter fun w => w.length ≤ gs))
        (emptyGrid gs) [] 0 with
    | none => rw [hpw] at h; exact absurd h (by simp)
    | some gp =>
      obtain ⟨gf0, pls0⟩ := gp
      rw [hpw] at h
      obtain ⟨h1, h2⟩ : fill_empty_cells L gf0 = g ∧ pls0 = pls := by
        simpa using h
      subst h2
      subst h1
      exact ⟨gf0, rfl, rfl⟩

theorem insertByLenDesc_perm (w : List Char) :
    ∀ l, (insertByLenDesc w l).Perm (w :: l)
  | [] => List.Perm.refl _
  | x :: xs => by
    rw [insertByLenDesc]
    by_cases h : x.length < w.length
    · rw [if_pos h]
    · rw [if_neg h]
      exact ((insertByLenDesc_perm w xs).cons x).trans
        (List.Perm.swap w x xs)

theorem sortedByLenDesc_perm : ∀ ws, (sortedByLenDesc ws).Perm ws
  | [] => List.Perm.refl _
  | w :: ws =>
    (insertByLenDesc_perm w (sortedByLenDesc ws)).trans
      ((sortedByLenDesc_perm ws).cons w)

theorem generate_words_perm {rng : PlaceRng} {L : LetterRng} {gs : ℕ}
    {words : List (List Char)} {g : Grid} {pls : List Placement}
    (h : generate_word_search rng L gs words = some (g, pls)) :
    (pls.map Placement.word).Perm words := by
  obtain ⟨hfe, gf, hpw, _⟩ := generate_sound h
  have hwords := placeWords_words _ _ _ _ hpw
  simp only [List.map_nil, List.nil_append] at hwords
  rw [hwords]
  have hperm := sortedByLenDesc_perm (words.filter fun w => w.length ≤ gs)
  have hfw : (words.filter fun w => w.length ≤ gs).Perm words := by
    rw [hfe]
  exact hperm.trans hfw

theorem countP_eq_one_of_nodup_mem {α : Type} [DecidableEq α] {l : List α}
    {a : α} (hnd : l.Nodup) (ha : a ∈ l) :
    l.countP (fun x => decide (x = a)) = 1 := by
  induction l with
  | nil => simp at ha
  | cons b t ih =>
    rw [List.countP_cons]
    rcases List.mem_cons.mp ha with rfl | hmem
    · have hz : t.countP (fun x => decide (x = a)) = 0 := by
        rw [List.countP_eq_zero]
        intro x hx
        simp only [decide_eq_true_eq]
        intro hxa
        subst hxa
        exact (List.nodup_cons.mp hnd).1 hx
      simp [hz]
    · have hbne : b ≠ a := by
        intro h
        subst h
        exact (List.nodup_cons.mp hnd).1 hmem
      have hct := ih (List.nodup_cons.mp hnd).2 hmem
      simp [hct, hbne]

/-- **C1.** On every successful generation (with a word set as the
caller provides it: deduplicated, no blank characters), every requested
word appears in the returned placements exactly once, every placement
path lies within `[0, size)²`, the grid letter at `path[i]` equals
`word[i]`, and no cell of the returned grid holds the blank sentinel. -/
theorem generate_success_correct (rng : PlaceRng) (L : LetterRng) (gs : ℕ)
    (words : List (List Char)) (g : Grid) (pls : List Placement)
    (hnd : words.Nodup)
    (hnb : ∀ w ∈ words, ∀ ch ∈ w, ch ≠ ' ')
    (hgen : generate_word_search rng L gs words = some (g, pls)) :
    (∀ w ∈ words, (pls.filter fun pl => pl.word = w).length = 1) ∧
    (∀ pl ∈ pls, pl.path.length = pl.word.length ∧
      ∀ p ∈ pl.path, inBoundsCell gs p) ∧
    (∀ pl ∈ pls, ∀ j, j < pl.word.length →
      cellAt g (pl.path.getD j (0, 0)) = pl.word.getD j ' ') ∧
    (∀ row ∈ g, ∀ ch ∈ row, ch ≠ ' ') := by
  obtain ⟨hfe, gf, hpw, hgfill⟩ := generate_sound hgen
  have hnb' : ∀ w ∈ sortedByLenDesc (words.filter fun w => w.length ≤ gs),
      ∀ ch ∈ w, ch ≠ ' ' := by
    intro w hw
    have hmem : w ∈ words := by
      have := (sortedByLenDesc_perm _).mem_iff.mp hw
      rw [hfe] at this
      exact this
    exact hnb w hmem
  obtain ⟨hwf_gf, hgoodpl⟩ :=
    placeWords_good _ _ _ _ hpw (emptyGrid_wf gs) hnb' (by simp)
  refine ⟨?_, ?_, ?_, ?_⟩
  · intro w hw
    rw [← List.countP_eq_length_filter]
    have hmapped : pls.countP (fun pl => decide (pl.word = w)) =
        (pls.map Placement.word).countP fun x => decide (x = w) := by
      rw [List.countP_map]
      rfl
    rw [hmapped, (generate_words_perm hgen).countP_eq]
    exact countP_eq_one_of_nodup_mem hnd hw
  · intro pl hpl
    have h := hgoodpl pl hpl
    refine ⟨h.1, fun p hp => ?_⟩
    obtain ⟨j, hj, rfl⟩ := List.mem_iff_getElem.mp hp
    have hj' : j < pl.word.length := by rw [← h.1]; exact hj
    have := (h.2 j hj').1
    rwa [List.getD_eq_getElem _ _ hj] at this
  · intro pl hpl j hj
    have h := hgoodpl pl hpl
    have hfillgood := good_preserved_fill L hwf_gf h
    rw [hgfill]
    exact (hfillgood.2 j hj).2.1
  · rw [hgfill]
    exact fill_no_blank L gf

/-- Witness for C1 at a concrete generation run on a 2×2 grid with the
single word "AB". -/
theorem generate_success_correct_witness :
    ([Placement.mk ['A', 'B'] [((0 : Int), (0 : Int)), (0, 1)]
        (0, 1)].filter fun pl => pl.word = ['A', 'B']).length = 1 :=
  (generate_success_correct (fun _ _ => (0, 0, 0)) (fun _ _ => 0) 2
    [['A', 'B']] [['A', 'B'], ['A', 'A']]
    [Placement.mk ['A', 'B'] [(0, 0), (0, 1)] (0, 1)]
    (by decide) (by decide) (by decide)).1 ['A', 'B'] (by decide)

/-- **C3.** A word longer than the grid makes the whole generation fail
up front, for every random stream: the pre-filter removes it, the
length comparison detects the removal and the single FAILURE outcome is
returned before any placement is attempted. -/
theorem generate_fails_on_too_long_word (rng : PlaceRng) (L : LetterRng)
    (gs : ℕ) (words : List (List Char)) (w : List Char)
    (hw : w ∈ words) (hlen : gs < w.length) :
    generate_word_search rng L gs words = none := by
  unfold generate_word_search
  have hlt : (words.filter fun x => x.length ≤ gs).length < words.length :=
    List.length_filter_lt_length_iff_exists.mpr
      ⟨w, hw, by simp only [decide_eq_true_eq]; omega⟩
  rw [if_pos hlt]

/-- Witness for C3: a 1×1 grid cannot host "AB". -/
theorem generate_fails_on_too_long_word_witness :
    generate_word_search (fun _ _ => (0, 0, 0)) (fun _ _ => 0) 1
      [['A', 'B']] = none :=
  generate_fails_on_too_long_word (fun _ _ => (0, 0, 0)) (fun _ _ => 0) 1
    [['A', 'B']] ['A', 'B'] (by decide) (by decide)

theorem tryAttempts_congr {rng rng' : PlaceRng} {gs wIdx : ℕ} {w : List Char}
    {grid : Grid} :
    ∀ (fuel attempt : ℕ),
      (∀ a, attempt ≤ a → a < attempt + fuel → rng wIdx a = rng' wIdx a) →
      tryAttempts rng gs wIdx w grid attempt fuel =
        tryAttempts rng' gs wIdx w grid attempt fuel
  | 0, _, _ => rfl
  | fuel + 1, attempt, hag => by
    rw [tryAttempts, tryAttempts]
    have hcand : drawCandidate rng gs wIdx attempt =
        drawCandidate rng' gs wIdx attempt := by
      unfold drawCandidate
      rw [hag attempt le_rfl (by omega)]
    rw [hcand]
    by_cases hc : can_place_word grid w (drawCandidate rng' gs wIdx attempt).1
        (drawCandidate rng' gs wIdx attempt).2.1
        (drawCandidate rng' gs wIdx attempt).2.2 = true
    · rw [if_pos hc, if_pos hc]
    · rw [if_neg hc, if_neg hc]
      exact tryAttempts_congr fuel (attempt + 1)
        fun a h1 h2 => hag a (by omega) (by omega)

theorem tryAttempts_none {rng : PlaceRng} {gs wIdx : ℕ} {w : List Char}
    {grid : Grid} :
    ∀ (fuel attempt : ℕ),
      (∀ a, attempt ≤ a → a < attempt + fuel →
        can_place_word grid w (drawCandidate rng gs wIdx a).1
          (drawCandidate rng gs wIdx a).2.1
          (drawCandidate rng gs wIdx a).2.2 = false) →
      tryAttempts rng gs wIdx w grid attempt fuel = none
  | 0, _, _ => rfl
  | fuel + 1, attempt, hrej => by
    rw [tryAttempts]
    rw [if_neg (by
      rw [hrej attempt le_rfl (by omega)]
      exact Bool.false_ne_true)]
    exact tryAttempts_none fuel (attempt + 1)
      fun a h1 h2 => hrej a (by omega) (by omega)

theorem placeWords_congr {rng rng' : PlaceRng} {gs : ℕ}
    (hag : ∀ wi a, a < MAX_PLACEMENT_ATTEMPTS → rng wi a = rng' wi a) :
    ∀ (ws : List (List Char)) (grid : Grid) (placed : List Placement)
      (wIdx : ℕ),
      placeWords rng gs ws grid placed wIdx =
        placeWords rng' gs ws grid placed wIdx
  | [], _, _, _ => rfl
  | w :: ws', grid, placed, wIdx => by
    rw [placeWords, placeWords]
    rw [tryAttempts_congr MAX_PLACEMENT_ATTEMPTS 0
      fun a _ h2 => hag wIdx a (by omega)]
    cases htry : tryAttempts rng' gs wIdx w grid 0 MAX_PLACEMENT_ATTEMPTS with
    | none => rfl
    | some gp =>
      obtain ⟨g0, pl0⟩ := gp
      exact placeWords_congr hag ws' g0 (placed ++ [pl0]) (wIdx + 1)

theorem generate_word_search_congr {rng rng' : PlaceRng} (L : LetterRng)
    (gs : ℕ) (words : List (List Char))
    (hag : ∀ wi a, a < MAX_PLACEMENT_ATTEMPTS → rng wi a = rng' wi a) :
    generate_word_search rng L gs words =
      generate_word_search rng' L gs words := by
  unfold generate_word_search
  rw [placeWords_congr hag]

/-- **C4.** The retry budget and failure semantics of the placement
loop: (a) the generator consults at most `MAX_PLACEMENT_ATTEMPTS`
random candidates per word — two random streams agreeing on the first
`MAX_PLACEMENT_ATTEMPTS` attempts of every word produce identical
results; (b) on success the placement list always covers exactly
the requested words — never a partial list; (c) if every budgeted
candidate for the first word to be placed is rejected, the whole
generation returns the single FAILURE outcome. -/
theorem generation_budget_and_failure (rng rng' : PlaceRng) (L : LetterRng)
    (gs : ℕ) (words : List (List Char))
    (hagree : ∀ wi a, a < MAX_PLACEMENT_ATTEMPTS → rng wi a = rng' wi a) :
    generate_word_search rng L gs words =
      generate_word_search rng' L gs words ∧
    (∀ g pls, generate_word_search rng L gs words = some (g, pls) →
      (pls.map Placement.word).Perm words) ∧
    (∀ w ws', sortedByLenDesc (words.filter fun x => x.length ≤ gs) = w :: ws' →
      (∀ a, a < MAX_PLACEMENT_ATTEMPTS →
        can_place_word (emptyGrid gs) w (drawCandidate rng gs 0 a).1
          (drawCandidate rng gs 0 a).2.1
          (drawCandidate rng gs 0 a).2.2 = false) →
      generate_word_search rng L gs words = none) := by
  refine ⟨generate_word_search_congr L gs words hagree, ?_, ?_⟩
  · intro g pls h
    exact generate_words_perm h
  · intro w ws' hsorted hrej
    unfold generate_word_search
    by_cases hlt : (words.filter fun x => x.length ≤ gs).length < words.length
    · rw [if_pos hlt]
    · rw [if_neg hlt, hsorted, placeWords]
      rw [tryAttempts_none MAX_PLACEMENT_ATTEMPTS 0
        fun a _ h2 => hrej a (by omega)]

theorem fdiv_abs_self {a : Int} (h : a ≠ 0) : a.fdiv |a| = a.sign := by
  rcases lt_trichotomy a 0 with hneg | hz | hpos
  · rw [abs_of_neg hneg, Int.sign_eq_neg_one_of_neg hneg]
    have key : ((-1 : Int) * (-a)).fdiv (-a) = -1 :=
      Int.mul_fdiv_cancel _ (by omega)
    have harw : ((-1 : Int) * (-a)) = a := by ring
    rw [harw] at key
    exact key
  · exact absurd hz h
  · rw [abs_of_pos hpos, Int.sign_eq_one_of_pos hpos, Int.fdiv_self h]

theorem is_valid_drag_path_cases {s e : Cell}
    (h : is_valid_drag_path s e = true) :
    e.1 - s.1 = 0 ∨ e.2 - s.2 = 0 ∨ |e.1 - s.1| = |e.2 - s.2| := by
  simpa [is_valid_drag_path, Bool.or_eq_true, decide_eq_true_eq,
    or_assoc] using h

theorem get_path_between_eq_specDragLine (grid_size : ℕ) (s e : Cell)
    (hs : inBoundsCell grid_size s)
    (hvalid : is_valid_drag_path s e = true) :
    get_path_between grid_size s e = specDragLine grid_size s e := by
  obtain ⟨r1, c1⟩ := s
  obtain ⟨r2, c2⟩ := e
  have hv := is_valid_drag_path_cases hvalid
  simp only at hv
  by_cases hsteps : (max |r2 - r1| |c2 - c1| : Int) = 0
  · have h1 : |r2 - r1| = (0 : Int) :=
      le_antisymm (hsteps ▸ le_max_left _ _) (abs_nonneg _)
    have h2 : |c2 - c1| = (0 : Int) :=
      le_antisymm (hsteps ▸ le_max_right _ _) (abs_nonneg _)
    have hr : r2 = r1 := by
      have := abs_eq_zero.mp h1; omega
    have hc : c2 = c1 := by
      have := abs_eq_zero.mp h2; omega
    subst hr
    subst hc
    have hget : get_path_between grid_size (r2, c2) (r2, c2) = [(r2, c2)] := by
      simp [get_path_between]
    have hspec : specDragLine grid_size (r2, c2) (r2, c2) = [(r2, c2)] := by
      simp [specDragLine, hs]
    rw [hget, hspec]
  · have hdrstep : (if r2 - r1 ≠ 0
        then (r2 - r1).fdiv (max |r2 - r1| |c2 - c1|) else 0) =
        (r2 - r1).sign := by
      by_cases hdr : r2 - r1 = 0
      · rw [if_neg (not_not.mpr hdr), hdr, Int.sign_zero]
      · rw [if_pos hdr]
        have hmax : max |r2 - r1| |c2 - c1| = |r2 - r1| := by
          rcases hv with h | h | h
          · exact absurd h hdr
          · rw [h, abs_zero]
            exact max_eq_left (abs_nonneg _)
          · rw [h, max_self]
        rw [hmax]
        exact fdiv_abs_self hdr
    have hdcstep : (if c2 - c1 ≠ 0
        then (c2 - c1).fdiv (max |r2 - r1| |c2 - c1|) else 0) =
        (c2 - c1).sign := by
      by_cases hdc : c2 - c1 = 0
      · rw [if_neg (not_not.mpr hdc), hdc, Int.sign_zero]
      · rw [if_pos hdc]
        have hmax : max |r2 - r1| |c2 - c1| = |c2 - c1| := by
          rcases hv with h | h | h
          · rw [h, abs_zero]
            exact max_eq_right (abs_nonneg _)
          · exact absurd h hdc
          · rw [h, max_self]
        rw [hmax]
        exact fdiv_abs_self hdc
    unfold get_path_between specDragLine
    rw [if_neg hsteps]
    rw [hdrstep, hdcstep]

/-- **C6.** Drag-path recomputation: under the straight-line guard the
source's floor-division stepping equals the spec's inclusive sign-step
line with out-of-bounds clipping (for any start cell on the grid, as
every drag start is); the two concrete drags of the spec produce the
stated paths; and a move to a non-collinear cell such as (5,4) from
start (2,2) leaves the drag state (hence the current path) unchanged. -/
theorem drag_path_operations (grid_size : ℕ) (s e : Cell)
    (hs : inBoundsCell grid_size s)
    (hvalid : is_valid_drag_path s e = true) :
    get_path_between grid_size s e = specDragLine grid_size s e ∧
    get_path_between 15 (2, 2) (2, 5) = [(2, 2), (2, 3), (2, 4), (2, 5)] ∧
    get_path_between 15 (2, 2) (5, 2) = [(2, 2), (3, 2), (4, 2), (5, 2)] ∧
    (∀ st : DragState, st.drag_start_cell = (2, 2) →
      mouseMoveEvent 15 true st (some (5, 4)) = st) := by
  refine ⟨get_path_between_eq_specDragLine grid_size s e hs hvalid,
    by decide, by decide, ?_⟩
  intro st hstart
  have hiv : is_valid_drag_path ((2 : Int), (2 : Int)) ((5 : Int), (4 : Int)) =
      false := by decide
  unfold mouseMoveEvent
  cases hd : st.is_dragging with
  | false => simp [hd]
  | true => simp [hd, hstart, hiv]

/-- Witness for C6: the horizontal example drag. -/
theorem drag_path_operations_witness :
    get_path_between 15 (2, 2) (2, 5) = [(2, 2), (2, 3), (2, 4), (2, 5)] :=
  (drag_path_operations 15 (2, 2) (2, 5) (by decide) (by decide)).2.1

/-- Witness for C4: the two conjuncts instantiated on the concrete run
used for C1, with identical random streams. -/
theorem generation_budget_and_failure_witness :
    ([Placement.mk ['A', 'B'] [((0 : Int), (0 : Int)), (0, 1)]
        (0, 1)].map Placement.word).Perm [['A', 'B']] :=
  (generation_budget_and_failure (fun _ _ => (0, 0, 0)) (fun _ _ => (0, 0, 0))
    (fun _ _ => 0) 2 [['A', 'B']] (fun _ _ _ => rfl)).2.1
    [['A', 'B'], ['A', 'A']]
    [Placement.mk ['A', 'B'] [(0, 0), (0, 1)] (0, 1)]
    (by decide)

/-- **C7.** Ending a selection concatenates the letters along the path
in traversal order and checks the word set forward, then reversed; a
fresh match is added to the found words, its path recorded as an
unordered cell-set, and removed from the unfound subset.  The two
concrete examples of the spec: a "CATDOG" row matches "CAT" on path
(0,0)-(0,2), and matches "TAC" via the reversal check when the word set
holds "TAC" instead. -/
theorem selection_matching :
    (∀ (st : AppState) (path : List Cell),
      (path.map fun p => cellAt st.grid p) ∈ st.words →
      (path.map fun p => cellAt st.grid p) ∉ st.found_words →
      on_word_selected st path =
        { st with
            found_words :=
              insert (path.map fun p => cellAt st.grid p) st.found_words
            found_paths := insert path.toFinset st.found_paths
            unfound_words :=
              st.unfound_words.erase (path.map fun p => cellAt st.grid p) }) ∧
    (∀ (st : AppState) (path : List Cell),
      ¬ ((path.map fun p => cellAt st.grid p) ∈ st.words ∧
        (path.map fun p => cellAt st.grid p) ∉ st.found_words) →
      (path.map fun p => cellAt st.grid p).reverse ∈ st.words →
      (path.map fun p => cellAt st.grid p).reverse ∉ st.found_words →
      on_word_selected st path =
        { st with
            found_words :=
              insert (path.map fun p => cellAt st.grid p).reverse
                st.found_words
            found_paths := insert path.toFinset st.found_paths
            unfound_words :=
              st.unfound_words.erase
                (path.map fun p => cellAt st.grid p).reverse }) ∧
    on_word_selected
      (AppState.mk [['C', 'A', 'T', 'D', 'O', 'G']] 6 {['C', 'A', 'T']} []
        {['C', 'A', 'T']} ∅ ∅ ∅ none) [(0, 0), (0, 1), (0, 2)] =
      AppState.mk [['C', 'A', 'T', 'D', 'O', 'G']] 6 {['C', 'A', 'T']} [] ∅
        {['C', 'A', 'T']} {({(0, 0), (0, 1), (0, 2)} : Finset Cell)} ∅ none ∧
    on_word_selected
      (AppState.mk [['C', 'A', 'T', 'D', 'O', 'G']] 6 {['T', 'A', 'C']} []
        {['T', 'A', 'C']} ∅ ∅ ∅ none) [(0, 0), (0, 1), (0, 2)] =
      AppState.mk [['C', 'A', 'T', 'D', 'O', 'G']] 6 {['T', 'A', 'C']} [] ∅
        {['T', 'A', 'C']} {({(0, 0), (0, 1), (0, 2)} : Finset Cell)} ∅
        none := by
  refine ⟨?_, ?_, by decide, by decide⟩
  · intro st path hmem hnew
    unfold on_word_selected
    rw [if_pos ⟨hmem, hnew⟩]
  · intro st path hfwd hmem hnew
    unfold on_word_selected
    rw [if_neg hfwd, if_pos ⟨hmem, hnew⟩]

/-- Witness for C7: the forward-match branch on the CAT example. -/
theorem selection_matching_witness :
    on_word_selected
      (AppState.mk [['C', 'A', 'T', 'D', 'O', 'G']] 6 {['C', 'A', 'T']} []
        {['C', 'A', 'T']} ∅ ∅ ∅ none) [(0, 0), (0, 1), (0, 2)] =
      { AppState.mk [['C', 'A', 'T', 'D', 'O', 'G']] 6 {['C', 'A', 'T']} []
          {['C', 'A', 'T']} ∅ ∅ ∅ none with
        found_words :=
          insert
            ([((0 : Int), (0 : Int)), (0, 1), (0, 2)].map fun p =>
              cellAt [['C', 'A', 'T', 'D', 'O', 'G']] p) ∅
        found_paths :=
          insert ([((0 : Int), (0 : Int)), (0, 1), (0, 2)] :
            List Cell).toFinset ∅
        unfound_words :=
          Finset.erase {['C', 'A', 'T']}
            ([((0 : Int), (0 : Int)), (0, 1), (0, 2)].map fun p =>
              cellAt [['C', 'A', 'T', 'D', 'O', 'G']] p) } :=
  selection_matching.1
    (AppState.mk [['C', 'A', 'T', 'D', 'O', 'G']] 6 {['C', 'A', 'T']} []
      {['C', 'A', 'T']} ∅ ∅ ∅ none) [(0, 0), (0, 1), (0, 2)]
    (by decide) (by decide)

/-- **C8.** A hint request for a selected word that is not yet found and
has a stored placement replaces the hint set — whatever it held — with
exactly one single-cell path holding the first cell of that word's
stored path; a request for an already-found or unknown word leaves the
state unchanged and reports the outcome. -/
theorem hint_behavior (st : AppState) (w : List Char)
    (hg : st.grid ≠ []) (hsel : st.selected_word = some w) :
    (∀ pd, w ∈ st.unfound_words →
      (∀ x ∈ st.unfound_words, x ∉ st.found_words) →
      st.placed_words.find? (fun pl => pl.word == w) = some pd →
      give_hint st =
        ({ st with hint_paths := {({pd.path.getD 0 (0, 0)} : Finset Cell)} },
          HintReport.hinted)) ∧
    (w ∈ st.found_words → give_hint st = (st, HintReport.alreadyFound)) ∧
    (w ∉ st.found_words →
      st.placed_words.find? (fun pl => pl.word == w) = none →
      give_hint st = (st, HintReport.wordNotFound)) := by
  have hge : st.grid.isEmpty = false := by
    simpa [List.isEmpty_iff] using hg
  refine ⟨?_, ?_, ?_⟩
  · intro pd hunf hdisj hfind
    unfold give_hint
    rw [hge, hsel]
    simp only [Bool.false_eq_true, if_false]
    rw [if_neg (hdisj w hunf), hfind]
  · intro hfound
    unfold give_hint
    rw [hge, hsel]
    simp only [Bool.false_eq_true, if_false]
    rw [if_pos hfound]
  · intro hnf hfind
    unfold give_hint
    rw [hge, hsel]
    simp only [Bool.false_eq_true, if_false]
    rw [if_neg hnf, hfind]

/-- Witness for C8: a hint for "CAT" replaces a stale non-empty hint
set with the single first cell (0,0) of CAT's stored path. -/
theorem hint_behavior_witness :
    give_hint
      (AppState.mk [['C', 'A', 'T']] 3 {['C', 'A', 'T']}
        [Placement.mk ['C', 'A', 'T'] [(0, 0), (0, 1), (0, 2)] (0, 1)]
        {['C', 'A', 'T']} ∅ ∅ {({(9, 9)} : Finset Cell)}
        (some ['C', 'A', 'T'])) =
      ({ AppState.mk [['C', 'A', 'T']] 3 {['C', 'A', 'T']}
          [Placement.mk ['C', 'A', 'T'] [(0, 0), (0, 1), (0, 2)] (0, 1)]
          {['C', 'A', 'T']} ∅ ∅ {({(9, 9)} : Finset Cell)}
          (some ['C', 'A', 'T']) with
        hint_paths :=
          {({((Placement.mk ['C', 'A', 'T'] [(0, 0), (0, 1), (0, 2)]
              (0, 1)).path.getD 0 (0, 0))} : Finset Cell)} },
        HintReport.hinted) :=
  (hint_behavior
    (AppState.mk [['C', 'A', 'T']] 3 {['C', 'A', 'T']}
      [Placement.mk ['C', 'A', 'T'] [(0, 0), (0, 1), (0, 2)] (0, 1)]
      {['C', 'A', 'T']} ∅ ∅ {({(9, 9)} : Finset Cell)}
      (some ['C', 'A', 'T'])) ['C', 'A', 'T'] (by decide) rfl).1
    (Placement.mk ['C', 'A', 'T'] [(0, 0), (0, 1), (0, 2)] (0, 1))
    (by decide) (by decide) (by decide)

theorem validateLoop_min_len :
    ∀ (ws validated : List (List Char)),
      (∀ w ∈ validated, MIN_WORD_LEN ≤ w.length) →
      ∀ w ∈ validateLoop ws validated, MIN_WORD_LEN ≤ w.length
  | [], _, hval => hval
  | w :: rest, validated, hval => by
    rw [validateLoop]
    by_cases h1 : ¬ (MIN_WORD_LEN ≤ (pyUpper (pyStrip w)).length ∧
        (pyUpper (pyStrip w)).length ≤ MAX_WORD_LEN)
    · rw [if_pos h1]
      exact validateLoop_min_len rest validated hval
    · rw [if_neg h1]
      by_cases h2 : ¬ (pyIsAlpha (pyUpper (pyStrip w)) = true ∧
          pyIsUpper (pyUpper (pyStrip w)) = true)
      · rw [if_pos h2]
        exact validateLoop_min_len rest validated hval
      · rw [if_neg h2]
        by_cases h3 : pyUpper (pyStrip w) ∈ validated.map pyUpper
        · rw [if_pos h3]
          exact validateLoop_min_len rest validated hval
        · rw [if_neg h3]
          refine validateLoop_min_len rest _ ?_
          intro x hx
          rcases List.mem_append.mp hx with hx' | hx'
          · exact hval x hx'
          · rw [List.mem_singleton.mp hx']
            exact (not_not.mp h1).1

/-- **C9.** The validator only ever produces words of length at least
`MIN_WORD_LEN = 2`; under that guarantee on the word set, finalizing a
one-cell selection (a click without drag) never matches: the found and
unfound bookkeeping is untouched, and the release handler always clears
the transient path. -/
theorem single_cell_selection_no_match :
    (∀ l, ∀ w ∈ validate_words l, MIN_WORD_LEN ≤ w.length) ∧
    (∀ (st : AppState) (path : List Cell),
      (∀ w ∈ st.words, MIN_WORD_LEN ≤ w.length) → path.length = 1 →
      on_word_selected st path = st) ∧
    (∀ ds : DragState, ds.is_dragging = true →
      (mouseReleaseEvent ds).1.current_temp_path = []) := by
  refine ⟨?_, ?_, ?_⟩
  · intro l w hw
    have hmem : w ∈ validateLoop l [] :=
      List.mem_of_mem_take hw
    exact validateLoop_min_len l [] (by simp) w hmem
  · intro st path hmin hlen
    unfold on_word_selected
    rw [if_neg, if_neg]
    · rintro ⟨hmem, _⟩
      have := hmin _ hmem
      rw [List.length_reverse, List.length_map, hlen] at this
      simp [MIN_WORD_LEN] at this
    · rintro ⟨hmem, _⟩
      have := hmin _ hmem
      rw [List.length_map, hlen] at this
      simp [MIN_WORD_LEN] at this
  · intro ds hd
    unfold mouseReleaseEvent
    rw [if_pos hd]

/-- Witness for C9: a single-cell click on a one-word state changes
nothing. -/
theorem single_cell_selection_no_match_witness :
    on_word_selected
      (AppState.mk [['A', 'B']] 2 {['A', 'B']} [] {['A', 'B']} ∅ ∅ ∅ none)
      [(0, 0)] =
      AppState.mk [['A', 'B']] 2 {['A', 'B']} [] {['A', 'B']} ∅ ∅ ∅ none :=
  single_cell_selection_no_match.2.1
    (AppState.mk [['A', 'B']] 2 {['A', 'B']} [] {['A', 'B']} ∅ ∅ ∅ none)
    [(0, 0)] (by decide) rfl

/-- Counterexample to **C2** as stated: a persisted file carrying
`grid` and `words` but missing `placed_words` is reported as a load
error, yet the prior in-memory state is NOT left as it was — the grid
and the word set have already been overwritten when the missing key
raises. -/
theorem load_puzzle_mutates_on_malformed :
    (load_puzzle
        (AppState.mk [['Z']] 1 {['Z']} [] {['Z']} ∅ ∅ ∅ none)
        (PuzzleFile.mk (some [['Q']]) (some []) none none)).2 = false ∧
    (load_puzzle
        (AppState.mk [['Z']] 1 {['Z']} [] {['Z']} ∅ ∅ ∅ none)
        (PuzzleFile.mk (some [['Q']]) (some []) none none)).1 ≠
      AppState.mk [['Z']] 1 {['Z']} [] {['Z']} ∅ ∅ ∅ none := by
  decide

/-- **C2 amended.** Loading a malformed file (a required key missing)
surfaces a recoverable error and leaves the solver state — grid size,
found/unfound word sets, found paths, hint paths, selection — exactly
as it was; but the fields assigned before the missing key is reached
(grid, words, placed words, in file order) already hold the file's
values, not the prior ones. -/
theorem load_puzzle_malformed_partial_frame (st : AppState) (f : PuzzleFile)
    (h : f.grid = none ∨ f.words = none ∨ f.placed_words = none ∨
      f.grid_size = none) :
    (load_puzzle st f).2 = false ∧
    (load_puzzle st f).1.grid_size = st.grid_size ∧
    (load_puzzle st f).1.found_words = st.found_words ∧
    (load_puzzle st f).1.unfound_words = st.unfound_words ∧
    (load_puzzle st f).1.found_paths = st.found_paths ∧
    (load_puzzle st f).1.hint_paths = st.hint_paths ∧
    (load_puzzle st f).1.selected_word = st.selected_word := by
  unfold load_puzzle
  rcases hg : f.grid with _ | g
  · simp
  · rcases hw : f.words with _ | ws
    · simp
    · rcases hp : f.placed_words with _ | pw
      · simp
      · rcases hs : f.grid_size with _ | gs
        · simp
        · rcases h with h | h | h | h <;> simp_all

/-- Witness for the amended C2 on the concrete malformed file of the
counterexample. -/
theorem load_puzzle_malformed_partial_frame_witness :
    (load_puzzle
        (AppState.mk [['Z']] 1 {['Z']} [] {['Z']} ∅ ∅ ∅ none)
        (PuzzleFile.mk (some [['Q']]) (some []) none none)).2 = false ∧
    (load_puzzle
        (AppState.mk [['Z']] 1 {['Z']} [] {['Z']} ∅ ∅ ∅ none)
        (PuzzleFile.mk (some [['Q']]) (some []) none none)).1.grid_size =
      (AppState.mk [['Z']] 1 {['Z']} [] {['Z']} ∅ ∅ ∅ none).grid_size ∧
    (load_puzzle
        (AppState.mk [['Z']] 1 {['Z']} [] {['Z']} ∅ ∅ ∅ none)
        (PuzzleFile.mk (some [['Q']]) (some []) none none)).1.found_words =
      (AppState.mk [['Z']] 1 {['Z']} [] {['Z']} ∅ ∅ ∅ none).found_words ∧
    (load_puzzle
        (AppState.mk [['Z']] 1 {['Z']} [] {['Z']} ∅ ∅ ∅ none)
        (PuzzleFile.mk (some [['Q']]) (some []) none none)).1.unfound_words =
      (AppState.mk [['Z']] 1 {['Z']} [] {['Z']} ∅ ∅ ∅ none).unfound_words ∧
    (load_puzzle
        (AppState.mk [['Z']] 1 {['Z']} [] {['Z']} ∅ ∅ ∅ none)
        (PuzzleFile.mk (some [['Q']]) (some []) none none)).1.found_paths =
      (AppState.mk [['Z']] 1 {['Z']} [] {['Z']} ∅ ∅ ∅ none).found_paths ∧
    (load_puzzle
        (AppState.mk [['Z']] 1 {['Z']} [] {['Z']} ∅ ∅ ∅ none)
        (PuzzleFile.mk (some [['Q']]) (some []) none none)).1.hint_paths =
      (AppState.mk [['Z']] 1 {['Z']} [] {['Z']} ∅ ∅ ∅ none).hint_paths ∧
    (load_puzzle
        (AppState.mk [['Z']] 1 {['Z']} [] {['Z']} ∅ ∅ ∅ none)
        (PuzzleFile.mk (some [['Q']]) (some []) none none)).1.selected_word =
      (AppState.mk [['Z']] 1 {['Z']} [] {['Z']} ∅ ∅ ∅ none).selected_word :=
  load_puzzle_malformed_partial_frame
    (AppState.mk [['Z']] 1 {['Z']} [] {['Z']} ∅ ∅ ∅ none)
    (PuzzleFile.mk (some [['Q']]) (some []) none none)
    (Or.inr (Or.inr (Or.inl rfl)))

end WordSeeker
